import Mathlib

/-!
Verification of src/blur_simd.c (i3lock-color blur kernels).

The file shallowly embeds the two SIMD blur backends:

* a pixel is its four 8-bit channels, `Pixel := Fin 4 → ℕ` (the packed
  `uint32_t` word, byte by byte); an image buffer is the surrounding address
  space, `Image := ℤ → Pixel`, so that a read below index 0 or at or above
  `width*height` is visible as a read of caller memory outside the buffer;
* machine 16-bit and 32-bit lane arithmetic is `ℕ` with explicit `% 2^16`
  and `% 2^32`;
* IEEE-754 binary32 arithmetic is exact rational arithmetic rounded to a
  24-bit significand with round-to-nearest, ties-to-even (`fl32`), which is
  exact for the value range the code reaches (no overflow, no subnormals);
* the C library calls `expf`/`sqrtf` and the constant `M_PI` reach the code
  only inside the kernel builder, whose outputs the SSE2 pass never reads;
  the builder is embedded with the two library functions as parameters
  (`eexp`, `ssqrt`), exact otherwise.
-/

namespace BlurSimd

/-- One pixel: its four 8-bit channels (the bytes of the packed `uint32_t`). -/
abbrev Pixel := Fin 4 → ℕ

/-- A pixel buffer inside the address space: index `0` is the first element of
the buffer; negative indices and indices at or beyond `width*height` are the
caller memory around the buffer. -/
abbrev Image := ℤ → Pixel

/-- `#define KERNEL_SIZE 7` (blur_simd.c line 16). -/
abbrev KERNEL_SIZE : ℕ := 7

/-- `#define HALF_KERNEL KERNEL_SIZE / 2` (line 17), C integer division. -/
abbrev HALF_KERNEL : ℕ := KERNEL_SIZE / 2

/-- `#define REGISTERS_CNT (KERNEL_SIZE + 4/2) / 4` (line 21), C integer
division: the number of 128-bit registers `rgbaIn` holds. -/
abbrev REGISTERS_CNT : ℕ := (KERNEL_SIZE + 4 / 2) / 4

/-- The value of the C `double` constant `M_PI`, exactly (the 53-bit
significand of pi times `2^-48`). -/
def mPi : ℚ := 884279719003555 / 281474976710656

/-- Unnormalized kernel entry (lines 32-38): `coeff * expf(-x*x / (2.0*sigma*sigma))`
with `x = HALF_KERNEL - i` and `coeff = 1.0 / sqrtf(2 * M_PI * sigma * sigma)`.
The C library floats `expf` and `sqrtf` are the parameters `eexp` and `ssqrt`. -/
def kernelRaw (eexp ssqrt : ℚ → ℚ) (sigma : ℚ) (i : ℕ) : ℚ :=
  (1 / ssqrt (2 * mPi * sigma * sigma)) *
    eexp (-(((HALF_KERNEL : ℚ) - i) * ((HALF_KERNEL : ℚ) - i)) / (2 * sigma * sigma))

/-- `sum` accumulated over the 7 unnormalized entries (lines 34-38). -/
def kernelSum (eexp ssqrt : ℚ → ℚ) (sigma : ℚ) : ℚ :=
  Finset.sum (Finset.range KERNEL_SIZE) fun i => kernelRaw eexp ssqrt sigma i

/-- The normalized kernel (lines 41-42): each entry divided by the sum. -/
def kernelNorm (eexp ssqrt : ℚ → ℚ) (sigma : ℚ) (i : ℕ) : ℚ :=
  kernelRaw eexp ssqrt sigma i / kernelSum eexp ssqrt sigma

/-! ## The binary32 model -/

/-- Round to the nearest integer, ties to even: the behaviour of
`_mm_cvtps_epi32` under the default MXCSR rounding mode, and the rounding
step of every binary32 operation. -/
def rhe (q : ℚ) : ℤ :=
  if q - ⌊q⌋ < 1/2 then ⌊q⌋
  else if 1/2 < q - ⌊q⌋ then ⌊q⌋ + 1
  else if ⌊q⌋ % 2 = 0 then ⌊q⌋ else ⌊q⌋ + 1

/-- Round an exact rational to binary32: 24 significand bits, round to
nearest, ties to even. Faithful to IEEE 754 single precision throughout the
normal range, which is the only range the blur arithmetic reaches. -/
def fl32 (x : ℚ) : ℚ :=
  if x = 0 then 0
  else (rhe (x / 2 ^ (Int.log 2 |x| - 23)) : ℚ) * 2 ^ (Int.log 2 |x| - 23)

/-- `1/((float)KERNEL_SIZE)` (line 102): the int 1 divided by the float 7 in
float arithmetic, i.e. the binary32 nearest to 1/7. -/
def inv7f : ℚ := fl32 (1 / (KERNEL_SIZE : ℚ))

/-- `_mm_cvtepi32_ps` on one lane holding `n`. -/
def cvtepi32_ps (n : ℕ) : ℚ := fl32 (n : ℚ)

/-- `_mm_mul_ps` on one lane: exact product, rounded to binary32. -/
def mulps (a b : ℚ) : ℚ := fl32 (a * b)

/-- `_mm_cvtps_epi32` on one lane: round to nearest, ties to even. -/
def cvtps_epi32 (q : ℚ) : ℤ := rhe q

/-- `_mm_packs_epi32` on one lane: saturate a 32-bit lane to signed 16 bits. -/
def packs_epi32 (n : ℤ) : ℤ := max (-32768) (min 32767 n)

/-- `_mm_packus_epi16` on one lane: saturate a signed 16-bit lane to
unsigned 8 bits. -/
def packus_epi16 (n : ℤ) : ℤ := max 0 (min 255 n)

/-! ## The border-aware gather (lines 57-85, identical text at lines 142-170) -/

/-- The row-relative column the gather loop stores into window slot `i`
(`0 ≤ i < KERNEL_SIZE`), exactly as lines 58-85 compute it:
left border (`column < HALF_KERNEL`): `+(HALF_KERNEL - i)` then
`-(HALF_KERNEL - i)`; right border (`column > width - HALF_KERNEL`, C int
arithmetic, which for the reachable `width ≥ 3` is the ℕ guard below):
`+i` for the in-row part, then `-(i - (width - column))`; interior: a direct
unaligned load of the pixels from `column - HALF_KERNEL` on. -/
def gatherOffset (width col i : ℕ) : ℤ :=
  if col < HALF_KERNEL then
    (if i < HALF_KERNEL - col then (col : ℤ) + ((HALF_KERNEL : ℤ) - i)
     else (col : ℤ) - ((HALF_KERNEL : ℤ) - i))
  else if width - HALF_KERNEL < col then
    (if i < width - col then (col : ℤ) + i
     else (col : ℤ) - ((i : ℤ) - ((width : ℤ) - col)))
  else (col : ℤ) + i - HALF_KERNEL

/-- Window slot `i` of the gather for output position (`row`, `col`): the
pixel the pass reads at flat address `row*width + gatherOffset`. -/
def sse2Window (img : Image) (width row col : ℕ) (i : Fin KERNEL_SIZE) : Pixel :=
  img ((row : ℤ) * width + gatherOffset width col i)

/-- The eighth packed slot of the two loaded registers. On the interior path
it is the in-memory pixel at offset `col + 4` (the tail of the second
`_mm_loadu_si128`, line 84); on either border path it is `_rgbaIn[7]`, one
word past the 7-element stack array (lines 72-73, 80-81), modelled by the
arbitrary `junk` parameter. It is masked off before accumulation either way. -/
def sse2Slot7 (img : Image) (width row col : ℕ) (junk : ℕ → ℕ → Pixel) : Pixel :=
  if col < HALF_KERNEL then junk row col
  else if width - HALF_KERNEL < col then junk row col
  else img ((row : ℤ) * width + col + 4)

/-! ## The SSE2 accumulation (lines 87-105) -/

/-- 16-bit lane addition of `_mm_add_epi16`. -/
def add16 (a b : ℕ) : ℕ := (a + b) % 65536

/-- Lane `l` of `_mm_unpacklo_epi8 / _mm_unpackhi_epi8` against zero applied
to two adjacent pixels: the low four 16-bit lanes hold the channels of `a`,
the high four those of `b`. -/
def sse2Lane (a b : Pixel) (l : Fin 8) : ℕ :=
  if h : l.val < 4 then a ⟨l.val, h⟩ else b ⟨l.val - 4, by omega⟩

/-- `_mm_andnot_si128(_mm_set_epi32(0xFFFFFFFF, 0xFFFFFFFF, 0, 0), x)`
(lines 96-97): keep the low four 16-bit lanes, zero the high four. -/
def sse2MaskHi (x : Fin 8 → ℕ) (l : Fin 8) : ℕ :=
  if l.val < 4 then x l else 0

/-- Lane `l` of `acc` after the four `_mm_add_epi16` steps (lines 90-97):
pixels 0,1 plus pixels 2,3 plus pixels 4,5 plus the masked pair
(pixel 6, eighth slot). -/
def sse2Acc16 (win : Fin KERNEL_SIZE → Pixel) (p7 : Pixel) (l : Fin 8) : ℕ :=
  add16 (add16 (add16 (sse2Lane (win 0) (win 1) l) (sse2Lane (win 2) (win 3) l))
               (sse2Lane (win 4) (win 5) l))
        (sse2MaskHi (sse2Lane (win 6) p7) l)

/-- Channel `ch` after `_mm_add_epi32(_mm_unpacklo_epi16(acc, zero),
_mm_unpackhi_epi16(acc, zero))` (lines 98-99): 32-bit lane sum of the two
16-bit lanes holding channel `ch`. -/
def sse2Sum32 (win : Fin KERNEL_SIZE → Pixel) (p7 : Pixel) (ch : Fin 4) : ℕ :=
  (sse2Acc16 win p7 ⟨ch.val, by omega⟩ + sse2Acc16 win p7 ⟨ch.val + 4, by omega⟩) % 4294967296

/-- One output channel from its 32-bit sum (lines 101-105): convert to
float, multiply by the float `1/KERNEL_SIZE`, convert back with rounding,
saturate to signed 16 bits and then to unsigned 8 bits. -/
def sse2ChannelOut (s : ℕ) : ℕ :=
  (packus_epi16 (packs_epi32 (cvtps_epi32 (mulps (cvtepi32_ps s) inv7f)))).toNat

/-- The SSE2 output pixel for position (`row`, `col`): gather, accumulate,
scale each channel, repack. -/
def sse2PixelOut (img : Image) (width row col : ℕ) (junk : ℕ → ℕ → Pixel) : Pixel :=
  fun ch => sse2ChannelOut (sse2Sum32 (sse2Window img width row col)
    (sse2Slot7 img width row col junk) ch)

/-! ## The passes and the orchestrators (lines 29-50, 52-108) -/

/-- The loop structure both backends share (lines 53-54 and 104, likewise
138-139 and 208): for every `row < height` and `column < width` the pass
stores the per-position result at `dst[height*column + row]`; memory outside
the written range `[0, height*width)` keeps `dstPrev`, the prior content of
the destination buffer and of the memory around it. -/
def horizontal_pass (pixelOut : ℕ → ℕ → Pixel) (width height : ℕ) (dstPrev : Image) : Image :=
  fun idx =>
    if 0 ≤ idx ∧ idx < (height : ℤ) * width then
      pixelOut (idx % height).toNat (idx / height).toNat
    else dstPrev idx

/-- `blur_impl_horizontal_pass_sse2` (lines 52-108). The `kernel` parameter
is bound, as in the C signature, and — exactly as in the C body — never
read. -/
def blur_impl_horizontal_pass_sse2 (src : Image) (kernel : ℕ → ℚ) (width height : ℕ)
    (junk : ℕ → ℕ → Pixel) (dstPrev : Image) : Image :=
  horizontal_pass (fun row col => sse2PixelOut src width row col junk) width height dstPrev

/-- `blur_impl_sse2` (lines 29-50): build the kernel once, run the
horizontal pass with (src, dst, width, height), then with
(dst, src, height, width). The first component is the `src` buffer after the
call, the second the `dst` buffer. `junk1`/`junk2` are the uninitialized
`_rgbaIn[7]` stack words of the two pass invocations. -/
def blur_impl_sse2 (eexp ssqrt : ℚ → ℚ) (src dst : Image) (width height : ℕ) (sigma : ℚ)
    (junk1 junk2 : ℕ → ℕ → Pixel) : Image × Image :=
  let kern := kernelNorm eexp ssqrt sigma
  let d := blur_impl_horizontal_pass_sse2 src kern width height junk1 dst
  let s := blur_impl_horizontal_pass_sse2 d kern height width junk2 src
  (s, d)

/-! ## The array accesses of the AVX accumulation (lines 133-208)

`blur_impl_horizontal_pass_avx` declares `__m256 kernels[HALF_KERNEL]`
(line 134) and `__m128i rgbaIn[REGISTERS_CNT]` (line 140). Its
accumulation (lines 182-198) walks `rgbaIn[i]` for `i = 0..3` and
`kernels[counter]` for `counter = 0..6`, a loop shape written for a 15-tap
kernel; with `KERNEL_SIZE = 7` these indices run past both arrays. -/

/-- The (rgbaIn index, kernels index) pair of every multiply-accumulate step
of the AVX accumulation, in program order: the `for (int i = 0; i < 3; i++)`
loop takes `rgbaIn[i]` with `kernels[counter]` twice per iteration,
incrementing `counter` each time (lines 182-193), and the trailing step
takes `rgbaIn[3]` with `kernels[counter]`, `counter` now 6 (lines 195-198). -/
def avxAccumAccesses : List (ℕ × ℕ) :=
  ((List.range 3).flatMap fun i => [(i, 2 * i), (i, 2 * i + 1)]) ++ [(3, 6)]


/-! ## Where each pass stores its results -/

/-- The store `dst[height*column + row]` (line 104/208) is inside the written
range and decodes back to (`row`, `column`). -/
theorem pass_store_addr (pixelOut : ℕ → ℕ → Pixel) (width height : ℕ) (dstPrev : Image)
    (row col : ℕ) (hr : row < height) (hc : col < width) :
    horizontal_pass pixelOut width height dstPrev ((height : ℤ) * col + row) = pixelOut row col := by
  have hrange : (0 : ℤ) ≤ (height : ℤ) * col + row ∧
      (height : ℤ) * col + row < (height : ℤ) * width := by
    constructor
    · positivity
    · have h1 : (height : ℤ) * col + row < (height : ℤ) * (col + 1) := by
        push_cast; nlinarith [hr]
      have h2 : (height : ℤ) * (col + 1) ≤ (height : ℤ) * width := by
        have h3 : (col : ℤ) + 1 ≤ (width : ℤ) := by exact_mod_cast hc
        nlinarith [Int.ofNat_nonneg height]
      omega
  have hh : (height : ℤ) ≠ 0 := by
    exact_mod_cast (lt_of_le_of_lt (Nat.zero_le _) hr).ne'
  have hmod : ((height : ℤ) * col + row) % height = row := by
    rw [add_comm, mul_comm, Int.add_mul_emod_self]
    exact Int.emod_eq_of_lt (by positivity) (by exact_mod_cast hr)
  have hdiv : ((height : ℤ) * col + row) / height = col := by
    rw [add_comm, mul_comm, Int.add_mul_ediv_right _ _ hh,
      Int.ediv_eq_zero_of_lt (by positivity) (by exact_mod_cast hr), zero_add]
  unfold horizontal_pass
  rw [if_pos hrange, hmod, hdiv]
  simp

/-- C1: for every width, height ≥ 1 and distinct source and destination
buffers, each backend builds the kernel once and runs its horizontal pass
twice, first with (src, dst, width, height), then with (dst, src, height,
width); each pass stores the result for input position (row r, column c) at
destination index height*c + r (first conjunct, for the shared loop shape of
the per-position computation `pixelOut` of either backend); consequently the dst
buffer holds the transposed intermediate of the first pass (second conjunct) and
the src buffer, read in the original row-major orientation at index r*w + c,
holds the output of the second pass for its input position (row c, column r) —
the fully blurred image in the original orientation (third conjunct). -/
theorem C1_two_pass_layout (pixelOut : ℕ → ℕ → Pixel) (eexp ssqrt : ℚ → ℚ)
    (src dst : Image) (sigma : ℚ) (junk1 junk2 : ℕ → ℕ → Pixel)
    (w h r c : ℕ) (hr : r < h) (hc : c < w) :
    horizontal_pass pixelOut w h dst ((h : ℤ) * c + r) = pixelOut r c
    ∧ (blur_impl_sse2 eexp ssqrt src dst w h sigma junk1 junk2).2
        = blur_impl_horizontal_pass_sse2 src (kernelNorm eexp ssqrt sigma) w h junk1 dst
    ∧ (blur_impl_sse2 eexp ssqrt src dst w h sigma junk1 junk2).1 ((r : ℤ) * w + c)
        = sse2PixelOut (blur_impl_horizontal_pass_sse2 src (kernelNorm eexp ssqrt sigma) w h junk1 dst)
            h c r junk2 := by
  refine ⟨pass_store_addr pixelOut w h dst r c hr hc, rfl, ?_⟩
  have h1 : (blur_impl_sse2 eexp ssqrt src dst w h sigma junk1 junk2).1
      = blur_impl_horizontal_pass_sse2
          (blur_impl_horizontal_pass_sse2 src (kernelNorm eexp ssqrt sigma) w h junk1 dst)
          (kernelNorm eexp ssqrt sigma) h w junk2 src := rfl
  rw [h1]
  unfold blur_impl_horizontal_pass_sse2
  rw [mul_comm]
  exact pass_store_addr _ h w src c r hc hr

/-- C1 witness: the layout facts at a concrete instance (1×1 image, constant
buffers). -/
theorem C1_two_pass_layout_witness :
    (0 < 1 ∧ 0 < 1)
    ∧ (horizontal_pass (fun _ _ => fun _ => 0) 1 1 (fun _ => fun _ => 0) ((1 : ℤ) * 0 + 0)
         = (fun _ _ => fun _ => (0 : ℕ)) 0 0
       ∧ (blur_impl_sse2 id id (fun _ => fun _ => 0) (fun _ => fun _ => 0) 1 1 1
            (fun _ _ => fun _ => 0) (fun _ _ => fun _ => 0)).2
           = blur_impl_horizontal_pass_sse2 (fun _ => fun _ => 0) (kernelNorm id id 1) 1 1
               (fun _ _ => fun _ => 0) (fun _ => fun _ => 0)
       ∧ (blur_impl_sse2 id id (fun _ => fun _ => 0) (fun _ => fun _ => 0) 1 1 1
            (fun _ _ => fun _ => 0) (fun _ _ => fun _ => 0)).1 ((0 : ℤ) * 1 + 0)
           = sse2PixelOut (blur_impl_horizontal_pass_sse2 (fun _ => fun _ => 0)
               (kernelNorm id id 1) 1 1 (fun _ _ => fun _ => 0) (fun _ => fun _ => 0))
               1 0 0 (fun _ _ => fun _ => 0)) :=
  ⟨⟨Nat.one_pos, Nat.one_pos⟩,
   C1_two_pass_layout (fun _ _ => fun _ => 0) id id (fun _ => fun _ => 0) (fun _ => fun _ => 0)
     1 (fun _ _ => fun _ => 0) (fun _ _ => fun _ => 0) 1 1 0 0 Nat.one_pos Nat.one_pos⟩

/-- C2 (code bug): the AVX accumulation steps index `rgbaIn[3]` and
`kernels[6]` although the declared arrays hold `REGISTERS_CNT = 2` registers
and `HALF_KERNEL = 3` broadcast pairs: with `KERNEL_SIZE = 7` the loop shape
(written for 15 taps) reads past both local arrays, so the pass is not the
claimed 7-pixel × 7-coefficient weighted convolution. -/
theorem C2_avx_reads_past_its_arrays :
    ((3, 6) ∈ avxAccumAccesses ∧ (1, 3) ∈ avxAccumAccesses)
    ∧ REGISTERS_CNT = 2 ∧ HALF_KERNEL = 3
    ∧ REGISTERS_CNT ≤ 3 ∧ HALF_KERNEL ≤ 6 := by decide

/-- C6: in both passes (the gather text at lines 62-70 and 152-155 is
identical and is embedded once as `gatherOffset`), for every output column
`col < 3` in a row of width ≥ 7, window slot `i` holds the source pixel of
the same row at column `col + (3 - i)` when `i < 3 - col` (reflection ahead
of the current column), and at column `col + (i - 3)` when `3 - col ≤ i`. -/
theorem C6_left_border_window (img : Image) (w row col : ℕ) (hw : 7 ≤ w)
    (hcol : col < 3) (i : Fin KERNEL_SIZE) :
    (i.val < 3 - col →
      sse2Window img w row col i = img ((row : ℤ) * w + col + (3 - (i : ℤ))))
    ∧ (3 - col ≤ i.val →
      sse2Window img w row col i = img ((row : ℤ) * w + col + ((i : ℤ) - 3))) := by
  have hi : i.val < 7 := i.isLt
  constructor <;> intro hcase
  · have hoff : gatherOffset w col i = (col : ℤ) + (3 - (i : ℤ)) := by
      unfold gatherOffset
      simp only [HALF_KERNEL, KERNEL_SIZE]
      split_ifs <;> omega
    unfold sse2Window
    rw [hoff, ← add_assoc]
  · have hoff : gatherOffset w col i = (col : ℤ) + ((i : ℤ) - 3) := by
      unfold gatherOffset
      simp only [HALF_KERNEL, KERNEL_SIZE]
      split_ifs <;> omega
    unfold sse2Window
    rw [hoff, ← add_assoc]

/-- C6 witness: the left-border window at width 7, column 0, slots 0 and 3 of
the identity-indexed image. -/
theorem C6_left_border_window_witness :
    (7 ≤ 7 ∧ 0 < 3 ∧ (0 < 3 - 0 ∧
      sse2Window (fun j => fun _ => j.toNat) 7 0 0 ⟨0, by decide⟩
        = (fun j : ℤ => fun _ : Fin 4 => j.toNat) ((0 : ℤ) * 7 + 0 + (3 - (0 : ℤ)))))
    ∧ (3 - 0 ≤ 3 ∧
      sse2Window (fun j => fun _ => j.toNat) 7 0 0 ⟨3, by decide⟩
        = (fun j : ℤ => fun _ : Fin 4 => j.toNat) ((0 : ℤ) * 7 + 0 + ((3 : ℤ) - 3))) :=
  ⟨⟨le_refl 7, Nat.zero_lt_succ _,
    ⟨Nat.zero_lt_succ _,
      (C6_left_border_window (fun j => fun _ => j.toNat) 7 0 0 (le_refl 7)
        (Nat.zero_lt_succ _) ⟨0, by decide⟩).1 (Nat.zero_lt_succ _)⟩⟩,
   ⟨le_refl 3,
      (C6_left_border_window (fun j => fun _ => j.toNat) 7 0 0 (le_refl 7)
        (Nat.zero_lt_succ _) ⟨3, by decide⟩).2 (le_refl 3)⟩⟩

/-- C7 counterexample: at width 7, column 6 (the last column), the first
loop loads only slot 0 (the pixel at column 6, the last loaded pixel); the
claim then puts the reflection of the positions past the row end about that
last pixel, column width − 2 = 5, into slot 1, but the code loads `*(src - 0)`
there, i.e. column 6 again: on the image whose pixel at index j has all four
channels equal to j, slot 1 is the pixel of column 6, not of column 5. -/
theorem C7_right_border_counterexample :
    sse2Window (fun j => fun _ => j.toNat) 7 0 6 ⟨1, by decide⟩
      = (fun j : ℤ => fun _ : Fin 4 => j.toNat) 6
    ∧ sse2Window (fun j => fun _ => j.toNat) 7 0 6 ⟨1, by decide⟩
      ≠ (fun j : ℤ => fun _ : Fin 4 => j.toNat) 5 := by
  have h6 : sse2Window (fun j => fun _ => j.toNat) 7 0 6 ⟨1, by decide⟩
      = (fun j : ℤ => fun _ : Fin 4 => j.toNat) 6 := by
    unfold sse2Window gatherOffset
    norm_num
  refine ⟨h6, ?_⟩
  rw [h6]
  intro hcontra
  have h2 := congrFun hcontra 0
  exact absurd h2 (by decide)

/-- C7 amended: for every output column `col > width - 3` in a row of width
≥ 7, the window is filled first with the in-bounds pixels from the current
column forward to the end of the row (slot i holds the pixel at column
`col + i` for `i < width - col`), and each remaining slot i counts backward
from the current column itself — it holds the pixel at column `width - i`
(columns col, col-1, col-2, ...), which duplicates the last pixel of the row
when `col = width - 1` rather than mirroring about it. -/
theorem C7_right_border_window (img : Image) (w row col : ℕ) (hw : 7 ≤ w)
    (hcol1 : w - 3 < col) (hcol2 : col < w) (i : Fin KERNEL_SIZE) :
    (i.val < w - col →
      sse2Window img w row col i = img ((row : ℤ) * w + col + (i : ℤ)))
    ∧ (w - col ≤ i.val →
      sse2Window img w row col i = img ((row : ℤ) * w + ((w : ℤ) - i))) := by
  have hi : i.val < 7 := i.isLt
  constructor <;> intro hcase
  · have hoff : gatherOffset w col i = (col : ℤ) + (i : ℤ) := by
      unfold gatherOffset
      simp only [HALF_KERNEL, KERNEL_SIZE]
      split_ifs <;> omega
    unfold sse2Window
    rw [hoff, ← add_assoc]
  · have hoff : gatherOffset w col i = (w : ℤ) - (i : ℤ) := by
      unfold gatherOffset
      simp only [HALF_KERNEL, KERNEL_SIZE]
      split_ifs <;> omega
    unfold sse2Window
    rw [hoff]

/-- C7 amended witness: width 7, column 6, slots 0 and 1. -/
theorem C7_right_border_window_witness :
    (7 ≤ 7 ∧ 7 - 3 < 6 ∧ 6 < 7)
    ∧ (0 < 7 - 6 ∧
      sse2Window (fun j => fun _ => j.toNat) 7 0 6 ⟨0, by decide⟩
        = (fun j : ℤ => fun _ : Fin 4 => j.toNat) ((0 : ℤ) * 7 + 6 + (0 : ℤ)))
    ∧ (7 - 6 ≤ 1 ∧
      sse2Window (fun j => fun _ => j.toNat) 7 0 6 ⟨1, by decide⟩
        = (fun j : ℤ => fun _ : Fin 4 => j.toNat) ((0 : ℤ) * 7 + ((7 : ℤ) - 1))) :=
  ⟨⟨le_refl 7, by omega, by decide⟩,
   ⟨Nat.zero_lt_succ _,
     (C7_right_border_window (fun j => fun _ => j.toNat) 7 0 6 (le_refl 7)
       (by omega) (by omega) ⟨0, by decide⟩).1 (Nat.zero_lt_succ _)⟩,
   ⟨le_refl 1,
     (C7_right_border_window (fun j => fun _ => j.toNat) 7 0 6 (le_refl 7)
       (by omega) (by omega) ⟨1, by decide⟩).2 (le_refl 1)⟩⟩

/-- C8: for every sigma > 0 (and any positive-valued library `expf`, and a
positive `sqrtf` result at the evaluated argument, as the real libm
guarantees), the 7-entry kernel of lines 31-42 — entry i proportional to
`exp(-(3-i)^2 / (2 sigma^2))` scaled by `1/sqrt(2 pi sigma^2)`, then divided
by the total — sums to 1 exactly (hence within any floating-point tolerance
such as 1e-5) and is symmetric: entry i equals entry 6-i. -/
theorem C8_kernel_normalized_symmetric (eexp ssqrt : ℚ → ℚ) (sigma : ℚ)
    (hsigma : 0 < sigma) (he : ∀ y, 0 < eexp y)
    (hs : 0 < ssqrt (2 * mPi * sigma * sigma)) :
    (Finset.sum (Finset.range KERNEL_SIZE) fun i => kernelNorm eexp ssqrt sigma i) = 1
    ∧ ∀ i < KERNEL_SIZE, kernelNorm eexp ssqrt sigma i = kernelNorm eexp ssqrt sigma (6 - i) := by
  have hraw : ∀ i : ℕ, 0 < kernelRaw eexp ssqrt sigma i := by
    intro i
    unfold kernelRaw
    have h1 : 0 < 1 / ssqrt (2 * mPi * sigma * sigma) := by positivity
    exact mul_pos h1 (he _)
  have hsum : 0 < kernelSum eexp ssqrt sigma := by
    unfold kernelSum
    exact Finset.sum_pos (fun i _ => hraw i) (by simp [KERNEL_SIZE])
  constructor
  · unfold kernelNorm
    rw [← Finset.sum_div]
    exact div_self (ne_of_gt hsum)
  · intro i hik
    have hle : i ≤ 6 := by simpa [KERNEL_SIZE] using Nat.lt_succ_iff.mp hik
    have hc : ((6 - i : ℕ) : ℚ) = 6 - (i : ℚ) := by
      push_cast [hle]
      ring
    have harg : -(((HALF_KERNEL : ℚ) - (i : ℚ)) * ((HALF_KERNEL : ℚ) - (i : ℚ)))
          / (2 * sigma * sigma)
        = -(((HALF_KERNEL : ℚ) - ((6 - i : ℕ) : ℚ)) * ((HALF_KERNEL : ℚ) - ((6 - i : ℕ) : ℚ)))
          / (2 * sigma * sigma) := by
      rw [hc]
      have h3 : ((HALF_KERNEL : ℕ) : ℚ) = 3 := by norm_num [HALF_KERNEL, KERNEL_SIZE]
      rw [h3]
      ring_nf
    unfold kernelNorm kernelRaw
    rw [harg]

/-- C8 witness: at sigma = 1 with the constant-one stand-ins for `expf` and
`sqrtf`, the hypotheses hold and the kernel sums to 1 and is symmetric. -/
theorem C8_kernel_normalized_symmetric_witness :
    (0 < (1 : ℚ))
    ∧ (∀ y : ℚ, 0 < (fun _ : ℚ => (1 : ℚ)) y)
    ∧ (0 < (fun _ : ℚ => (1 : ℚ)) (2 * mPi * 1 * 1))
    ∧ ((Finset.sum (Finset.range KERNEL_SIZE) fun i =>
          kernelNorm (fun _ => 1) (fun _ => 1) 1 i) = 1
       ∧ ∀ i < KERNEL_SIZE, kernelNorm (fun _ => 1) (fun _ => 1) 1 i
           = kernelNorm (fun _ => 1) (fun _ => 1) 1 (6 - i)) :=
  ⟨one_pos, fun _ => one_pos, one_pos,
    C8_kernel_normalized_symmetric (fun _ => 1) (fun _ => 1) 1 one_pos
      (fun _ => one_pos) one_pos⟩

/-- C9: the output of the SSE2 backend is byte-identical for any two sigmas (here
stated for any two positive sigmas, as the claim has it, though no
positivity is needed): `blur_impl_horizontal_pass_sse2` binds its kernel
argument and never reads it, so both the final src image and the dst scratch
agree exactly; the second conjunct states the pass-level fact for arbitrary
kernels. -/
theorem C9_sse2_independent_of_sigma (eexp ssqrt : ℚ → ℚ) (src dst : Image)
    (w h : ℕ) (sigma1 sigma2 : ℚ) (h1 : 0 < sigma1) (h2 : 0 < sigma2)
    (junk1 junk2 : ℕ → ℕ → Pixel) (kern1 kern2 : ℕ → ℚ) :
    blur_impl_sse2 eexp ssqrt src dst w h sigma1 junk1 junk2
      = blur_impl_sse2 eexp ssqrt src dst w h sigma2 junk1 junk2
    ∧ blur_impl_horizontal_pass_sse2 src kern1 w h junk1 dst
      = blur_impl_horizontal_pass_sse2 src kern2 w h junk1 dst := by
  have hp : ∀ (s0 d0 : Image) (w0 h0 : ℕ) (j : ℕ → ℕ → Pixel) (k1 k2 : ℕ → ℚ),
      blur_impl_horizontal_pass_sse2 s0 k1 w0 h0 j d0
        = blur_impl_horizontal_pass_sse2 s0 k2 w0 h0 j d0 :=
    fun _ _ _ _ _ _ _ => rfl
  constructor
  · show (blur_impl_horizontal_pass_sse2
        (blur_impl_horizontal_pass_sse2 src (kernelNorm eexp ssqrt sigma1) w h junk1 dst)
        (kernelNorm eexp ssqrt sigma1) h w junk2 src,
      blur_impl_horizontal_pass_sse2 src (kernelNorm eexp ssqrt sigma1) w h junk1 dst)
      = (blur_impl_horizontal_pass_sse2
        (blur_impl_horizontal_pass_sse2 src (kernelNorm eexp ssqrt sigma2) w h junk1 dst)
        (kernelNorm eexp ssqrt sigma2) h w junk2 src,
      blur_impl_horizontal_pass_sse2 src (kernelNorm eexp ssqrt sigma2) w h junk1 dst)
    rw [hp src dst w h junk1 (kernelNorm eexp ssqrt sigma1) (kernelNorm eexp ssqrt sigma2),
      hp _ src h w junk2 (kernelNorm eexp ssqrt sigma1) (kernelNorm eexp ssqrt sigma2)]
  · exact hp src dst w h junk1 kern1 kern2

/-- C9 witness: sigmas 1 and 2 on a concrete 1×1 configuration. -/
theorem C9_sse2_independent_of_sigma_witness :
    (0 < (1 : ℚ)) ∧ (0 < (2 : ℚ))
    ∧ (blur_impl_sse2 id id (fun _ => fun _ => 0) (fun _ => fun _ => 0) 1 1 1
         (fun _ _ => fun _ => 0) (fun _ _ => fun _ => 0)
       = blur_impl_sse2 id id (fun _ => fun _ => 0) (fun _ => fun _ => 0) 1 1 2
         (fun _ _ => fun _ => 0) (fun _ _ => fun _ => 0)
       ∧ blur_impl_horizontal_pass_sse2 (fun _ => fun _ => 0) (fun _ => 0) 1 1
           (fun _ _ => fun _ => 0) (fun _ => fun _ => 0)
         = blur_impl_horizontal_pass_sse2 (fun _ => fun _ => 0) (fun _ => 1) 1 1
           (fun _ _ => fun _ => 0) (fun _ => fun _ => 0)) :=
  ⟨one_pos, two_pos,
    C9_sse2_independent_of_sigma id id (fun _ => fun _ => 0) (fun _ => fun _ => 0) 1 1 1 2
      one_pos two_pos (fun _ _ => fun _ => 0) (fun _ _ => fun _ => 0)
      (fun _ => 0) (fun _ => 1)⟩

/-! ## Facts about the binary32 model -/

theorem rhe_intCast (m : ℤ) : rhe (m : ℚ) = m := by
  unfold rhe
  rw [Int.floor_intCast]
  norm_num

theorem rhe_natCast (m : ℕ) : rhe (m : ℚ) = m := by
  have h := rhe_intCast (m : ℤ)
  push_cast at h
  exact_mod_cast h

theorem rhe_eq_of_close (n : ℤ) (q : ℚ) (h1 : (n : ℚ) - 1/2 < q)
    (h2 : q < (n : ℚ) + 1/2) : rhe q = n := by
  have hfl : ⌊q⌋ = n ∨ ⌊q⌋ = n - 1 := by
    have l3 : (n - 1 : ℤ) ≤ ⌊q⌋ := by
      apply Int.le_floor.mpr
      push_cast
      linarith
    have l4 : ⌊q⌋ < n + 1 := by
      apply Int.floor_lt.mpr
      push_cast
      linarith
    omega
  have hle := Int.floor_le q
  have hlt := Int.lt_floor_add_one q
  unfold rhe
  rcases hfl with hf | hf <;> rw [hf] <;> split_ifs with a b c <;>
    first
      | rfl
      | omega
      | (exfalso; push_cast at *; linarith)

theorem rhe_close (q : ℚ) : |(rhe q : ℚ) - q| ≤ 1/2 := by
  have hle := Int.floor_le q
  have hlt := Int.lt_floor_add_one q
  unfold rhe
  split_ifs <;> rw [abs_le] <;> constructor <;> push_cast <;> linarith

theorem fl32_zero : fl32 0 = 0 := by
  unfold fl32
  simp

theorem fl32_close (x : ℚ) (hx : 0 < x) : |fl32 x - x| ≤ x / 2 ^ 24 := by
  unfold fl32
  rw [if_neg (ne_of_gt hx), abs_of_pos hx]
  have hlog : (2 : ℚ) ^ Int.log 2 x ≤ x := Int.zpow_log_le_self (by norm_num) hx
  set e : ℤ := Int.log 2 x - 23 with he
  have hpow : (0 : ℚ) < 2 ^ e := by positivity
  set y : ℚ := x / 2 ^ e with hy
  have key : (rhe y : ℚ) * 2 ^ e - x = ((rhe y : ℚ) - y) * 2 ^ e := by
    rw [hy]
    field_simp
  rw [key, abs_mul, abs_of_pos hpow]
  have h1 : |(rhe y : ℚ) - y| * 2 ^ e ≤ (1/2) * 2 ^ e :=
    mul_le_mul_of_nonneg_right (rhe_close y) (le_of_lt hpow)
  have h2 : (2 : ℚ) ^ e ≤ x / 2 ^ (23 : ℤ) := by
    rw [he, zpow_sub₀ (by norm_num : (2:ℚ) ≠ 0)]
    exact div_le_div_of_nonneg_right hlog (by positivity)
  have h3 : (1/2 : ℚ) * (x / 2 ^ (23 : ℤ)) = x / 2 ^ 24 := by
    rw [show ((2:ℚ) ^ (23:ℤ)) = 2 ^ (23:ℕ) from zpow_natCast 2 23]
    norm_num
    ring
  calc |(rhe y : ℚ) - y| * 2 ^ e ≤ (1/2) * 2 ^ e := h1
    _ ≤ (1/2) * (x / 2 ^ (23 : ℤ)) := by
        apply mul_le_mul_of_nonneg_left h2
        norm_num
    _ = x / 2 ^ 24 := h3

theorem fl32_int (n : ℕ) (hn : n < 2 ^ 24) : fl32 (n : ℚ) = n := by
  rcases Nat.eq_zero_or_pos n with h0 | h0
  · subst h0
    simpa using fl32_zero
  · have hxpos : (0 : ℚ) < n := by exact_mod_cast h0
    unfold fl32
    rw [if_neg (ne_of_gt hxpos), abs_of_pos hxpos]
    set L : ℤ := Int.log 2 (n : ℚ) with hL
    have hLnn : 0 ≤ L := by
      rw [hL]
      apply (Int.zpow_le_iff_le_log (by norm_num) hxpos).mp
      rw [zpow_zero]
      exact_mod_cast h0
    have hL23 : L ≤ 23 := by
      have h24 : (n : ℚ) < 2 ^ (24 : ℤ) := by
        rw [show ((2:ℚ) ^ (24:ℤ)) = 2 ^ (24:ℕ) from zpow_natCast 2 24]
        exact_mod_cast hn
      have h25 : L < 24 := by
        rw [hL]
        exact (Int.lt_zpow_iff_log_lt (by norm_num) hxpos).mp h24
      omega
    have htn : ((23 - L).toNat : ℤ) = 23 - L := Int.toNat_of_nonneg (by omega)
    have hy : (n : ℚ) / 2 ^ (L - 23) = ((n * 2 ^ (23 - L).toNat : ℕ) : ℚ) := by
      push_cast
      rw [← zpow_natCast (2:ℚ) ((23 - L).toNat), htn]
      rw [show (L - 23 : ℤ) = -(23 - L) by ring, zpow_neg]
      field_simp
    rw [hy, rhe_natCast]
    push_cast
    rw [← zpow_natCast (2:ℚ) ((23 - L).toNat), htn, mul_assoc,
      ← zpow_add₀ (by norm_num : (2:ℚ) ≠ 0)]
    norm_num

theorem inv7f_close : |inv7f - 1/7| ≤ (1/7) / 2 ^ 24 := by
  have h := fl32_close (1/7 : ℚ) (by norm_num)
  have h7 : (1 / ((KERNEL_SIZE : ℕ) : ℚ)) = (1/7 : ℚ) := by
    norm_num [KERNEL_SIZE]
  unfold inv7f
  rw [h7]
  exact h

/-- The whole scalar pipeline of lines 101-102 on one channel sum `s ≤ 2040`:
convert to float, multiply by the float `1/7`, convert back with rounding —
equals rounding the exact quotient `s / 7` to the nearest integer (no tie can
occur, since `2s` is even and `7(2n+1)` odd). -/
theorem sse2_scale_pipeline (s : ℕ) (hs : s ≤ 2040) :
    cvtps_epi32 (mulps (cvtepi32_ps s) inv7f) = rhe ((s : ℚ) / 7) := by
  unfold cvtps_epi32 mulps cvtepi32_ps
  have hpow24 : (2:ℕ) ^ 24 = 16777216 := by norm_num
  rw [fl32_int s (by omega)]
  set n : ℤ := (2 * (s : ℤ) + 7) / 14 with hn
  have hzbound : -3 ≤ (s : ℤ) - 7 * n ∧ (s : ℤ) - 7 * n ≤ 3 := by
    constructor <;> omega
  have hq1 : -(3/7 : ℚ) ≤ (s : ℚ) / 7 - n ∧ (s : ℚ) / 7 - n ≤ 3/7 := by
    have c1 : (-3 : ℚ) ≤ (s : ℚ) - 7 * n := by exact_mod_cast hzbound.1
    have c2 : ((s : ℚ) - 7 * n) ≤ 3 := by exact_mod_cast hzbound.2
    constructor <;> linarith
  have hin : |inv7f - 1/7| ≤ (1/7) / 2 ^ 24 := inv7f_close
  have hinlo : (1/7 : ℚ) - (1/7)/2^24 ≤ inv7f := by
    have := (abs_le.mp hin).1
    linarith
  have hinhi : inv7f ≤ (1/7 : ℚ) + (1/7)/2^24 := by
    have := (abs_le.mp hin).2
    linarith
  have hsq : (0 : ℚ) ≤ (s : ℚ) ∧ (s : ℚ) ≤ 2040 := by
    constructor
    · positivity
    · exact_mod_cast hs
  have hx1 : |(s : ℚ) * inv7f - (s : ℚ) / 7| ≤ 292 / 2 ^ 24 := by
    have heq : (s : ℚ) * inv7f - (s : ℚ) / 7 = (s : ℚ) * (inv7f - 1/7) := by ring
    rw [heq, abs_mul, abs_of_nonneg hsq.1]
    calc (s : ℚ) * |inv7f - 1/7| ≤ 2040 * ((1/7) / 2 ^ 24) := by
          apply mul_le_mul hsq.2 hin (abs_nonneg _) (by norm_num)
      _ ≤ 292 / 2 ^ 24 := by norm_num
  rcases Nat.eq_zero_or_pos s with h0 | hspos
  · subst h0
    simp only [Nat.cast_zero, zero_mul, fl32_zero, zero_div]
  · have hxpos : (0 : ℚ) < (s : ℚ) * inv7f := by
      apply mul_pos
      · exact_mod_cast hspos
      · calc (0:ℚ) < (1/7 : ℚ) - (1/7)/2^24 := by norm_num
          _ ≤ inv7f := hinlo
    have hxup : (s : ℚ) * inv7f ≤ 292 := by
      calc (s : ℚ) * inv7f ≤ 2040 * ((1/7 : ℚ) + (1/7)/2^24) := by
            apply mul_le_mul hsq.2 hinhi (by linarith) (by norm_num)
        _ ≤ 292 := by norm_num
    have hfl : |fl32 ((s : ℚ) * inv7f) - (s : ℚ) * inv7f| ≤ 292 / 2 ^ 24 := by
      calc |fl32 ((s : ℚ) * inv7f) - (s : ℚ) * inv7f| ≤ (s : ℚ) * inv7f / 2 ^ 24 :=
            fl32_close _ hxpos
        _ ≤ 292 / 2 ^ 24 := by
            apply div_le_div_of_nonneg_right hxup
            positivity
    have habs1 := abs_le.mp hx1
    have habs2 := abs_le.mp hfl
    have h1 : (n : ℚ) - 1/2 < fl32 ((s : ℚ) * inv7f) := by
      have : (2:ℚ)^24 = 16777216 := by norm_num
      nlinarith [hq1.1, habs1.1, habs2.1]
    have h2 : fl32 ((s : ℚ) * inv7f) < (n : ℚ) + 1/2 := by
      have : (2:ℚ)^24 = 16777216 := by norm_num
      nlinarith [hq1.2, habs1.2, habs2.2]
    rw [rhe_eq_of_close n _ h1 h2,
      rhe_eq_of_close n _ (by linarith [hq1.1]) (by linarith [hq1.2])]

/-! ## Exactness of the 16-bit accumulation -/

theorem sse2Lane_lo (a b : Pixel) (ch : Fin 4) (h : ch.val < 8) :
    sse2Lane a b ⟨ch.val, h⟩ = a ch := by
  unfold sse2Lane
  rw [dif_pos ch.isLt]

theorem sse2Lane_hi (a b : Pixel) (ch : Fin 4) (h : ch.val + 4 < 8) :
    sse2Lane a b ⟨ch.val + 4, h⟩ = b ch := by
  unfold sse2Lane
  rw [dif_neg (show ¬(ch.val + 4 < 4) from by omega)]
  congr 1

theorem sse2Sum32_eq (win : Fin KERNEL_SIZE → Pixel) (p7 : Pixel) (ch : Fin 4)
    (hb : ∀ i : Fin KERNEL_SIZE, win i ch ≤ 255) :
    sse2Sum32 win p7 ch
      = win 0 ch + win 1 ch + win 2 ch + win 3 ch + win 4 ch + win 5 ch + win 6 ch := by
  have h0 := hb 0
  have h1 := hb 1
  have h2 := hb 2
  have h3 := hb 3
  have h4 := hb 4
  have h5 := hb 5
  have h6 := hb 6
  have hm1 : sse2MaskHi (sse2Lane (win 6) p7) ⟨ch.val, by omega⟩ = win 6 ch := by
    unfold sse2MaskHi
    rw [if_pos (show ((⟨ch.val, by omega⟩ : Fin 8)).val < 4 from ch.isLt)]
    exact sse2Lane_lo (win 6) p7 ch (by omega)
  have hm2 : sse2MaskHi (sse2Lane (win 6) p7) ⟨ch.val + 4, by omega⟩ = 0 := by
    unfold sse2MaskHi
    rw [if_neg (show ¬((⟨ch.val + 4, by omega⟩ : Fin 8)).val < 4 from by
      show ¬(ch.val + 4 < 4)
      omega)]
  unfold sse2Sum32 sse2Acc16
  rw [sse2Lane_lo (win 0) (win 1) ch (by omega), sse2Lane_lo (win 2) (win 3) ch (by omega),
    sse2Lane_lo (win 4) (win 5) ch (by omega),
    sse2Lane_hi (win 0) (win 1) ch (by omega), sse2Lane_hi (win 2) (win 3) ch (by omega),
    sse2Lane_hi (win 4) (win 5) ch (by omega), hm1, hm2]
  unfold add16
  omega

/-- C10: for channel bytes ≤ 255, the chained `_mm_add_epi16` accumulation
never wraps: every 16-bit lane equals the plain (un-reduced) sum of its
terms and stays at most 7·255 = 1785 < 2^15, and the widened 32-bit
per-channel totals are the exact sums of the 7 window pixels — for every
window and any content of the masked eighth slot. -/
theorem C10_accumulation_exact (win : Fin KERNEL_SIZE → Pixel) (p7 : Pixel)
    (hb : ∀ (i : Fin KERNEL_SIZE) (c : Fin 4), win i c ≤ 255) :
    (∀ l : Fin 8, sse2Acc16 win p7 l
        = sse2Lane (win 0) (win 1) l + sse2Lane (win 2) (win 3) l
          + sse2Lane (win 4) (win 5) l + sse2MaskHi (sse2Lane (win 6) p7) l
      ∧ sse2Acc16 win p7 l ≤ 1785)
    ∧ (∀ ch : Fin 4, sse2Sum32 win p7 ch
        = win 0 ch + win 1 ch + win 2 ch + win 3 ch + win 4 ch + win 5 ch + win 6 ch
      ∧ sse2Sum32 win p7 ch ≤ 1785)
    ∧ 1785 < 2 ^ 15 := by
  refine ⟨fun l => ?_, fun ch => ?_, by norm_num⟩
  · have b1 : sse2Lane (win 0) (win 1) l ≤ 255 := by
      unfold sse2Lane
      split <;> apply hb
    have b2 : sse2Lane (win 2) (win 3) l ≤ 255 := by
      unfold sse2Lane
      split <;> apply hb
    have b3 : sse2Lane (win 4) (win 5) l ≤ 255 := by
      unfold sse2Lane
      split <;> apply hb
    have b4 : sse2MaskHi (sse2Lane (win 6) p7) l ≤ 255 := by
      unfold sse2MaskHi
      split
      · rename_i hl
        unfold sse2Lane
        rw [dif_pos hl]
        apply hb
      · omega
    unfold sse2Acc16 add16
    omega
  · have heq := sse2Sum32_eq win p7 ch (fun i => hb i ch)
    refine ⟨heq, ?_⟩
    rw [heq]
    have h0 := hb 0 ch
    have h1 := hb 1 ch
    have h2 := hb 2 ch
    have h3 := hb 3 ch
    have h4 := hb 4 ch
    have h5 := hb 5 ch
    have h6 := hb 6 ch
    omega

/-- C10 witness: the accumulation facts at a concrete window (channels all
7) and a deliberately out-of-range masked slot (channels 9999). -/
theorem C10_accumulation_exact_witness :
    (∀ (i : Fin KERNEL_SIZE) (c : Fin 4), (fun _ : Fin KERNEL_SIZE => fun _ : Fin 4 => 7) i c ≤ 255)
    ∧ ((∀ l : Fin 8, sse2Acc16 (fun _ => fun _ => 7) (fun _ => 9999) l
          = sse2Lane ((fun _ : Fin KERNEL_SIZE => fun _ : Fin 4 => 7) 0) ((fun _ : Fin KERNEL_SIZE => fun _ : Fin 4 => 7) 1) l
            + sse2Lane ((fun _ : Fin KERNEL_SIZE => fun _ : Fin 4 => 7) 2) ((fun _ : Fin KERNEL_SIZE => fun _ : Fin 4 => 7) 3) l
            + sse2Lane ((fun _ : Fin KERNEL_SIZE => fun _ : Fin 4 => 7) 4) ((fun _ : Fin KERNEL_SIZE => fun _ : Fin 4 => 7) 5) l
            + sse2MaskHi (sse2Lane ((fun _ : Fin KERNEL_SIZE => fun _ : Fin 4 => 7) 6) (fun _ => 9999)) l
        ∧ sse2Acc16 (fun _ => fun _ => 7) (fun _ => 9999) l ≤ 1785)
      ∧ (∀ ch : Fin 4, sse2Sum32 (fun _ => fun _ => 7) (fun _ => 9999) ch
          = (fun _ : Fin KERNEL_SIZE => fun _ : Fin 4 => 7) 0 ch + (fun _ : Fin KERNEL_SIZE => fun _ : Fin 4 => 7) 1 ch
            + (fun _ : Fin KERNEL_SIZE => fun _ : Fin 4 => 7) 2 ch + (fun _ : Fin KERNEL_SIZE => fun _ : Fin 4 => 7) 3 ch
            + (fun _ : Fin KERNEL_SIZE => fun _ : Fin 4 => 7) 4 ch + (fun _ : Fin KERNEL_SIZE => fun _ : Fin 4 => 7) 5 ch
            + (fun _ : Fin KERNEL_SIZE => fun _ : Fin 4 => 7) 6 ch
        ∧ sse2Sum32 (fun _ => fun _ => 7) (fun _ => 9999) ch ≤ 1785)
      ∧ 1785 < 2 ^ 15) :=
  ⟨fun _ _ => by norm_num,
   C10_accumulation_exact (fun _ => fun _ => 7) (fun _ => 9999) (fun _ _ => by norm_num)⟩

/-- The packed store of lines 104-105 on one channel: for any reachable sum,
the saturating double pack equals clamping the rounded quotient to 0..255. -/
theorem sse2ChannelOut_eq (s : ℕ) (hs : s ≤ 1785) :
    sse2ChannelOut s = Int.toNat (max 0 (min 255 (rhe ((s : ℚ) / 7)))) := by
  unfold sse2ChannelOut
  rw [sse2_scale_pipeline s (by omega)]
  have hq0 : (0 : ℚ) ≤ (s : ℚ) / 7 := by positivity
  have hq255 : (s : ℚ) / 7 ≤ 255 := by
    have hc : (s : ℚ) ≤ 1785 := by exact_mod_cast hs
    linarith
  have habs := abs_le.mp (rhe_close ((s : ℚ) / 7))
  have hlo : (-1 : ℚ) < (rhe ((s : ℚ) / 7) : ℚ) := by linarith
  have hhi : ((rhe ((s : ℚ) / 7) : ℤ) : ℚ) < 256 := by linarith
  have hloZ : (-1 : ℤ) < rhe ((s : ℚ) / 7) := by exact_mod_cast hlo
  have hhiZ : rhe ((s : ℚ) / 7) < 256 := by exact_mod_cast hhi
  unfold packus_epi16 packs_epi32
  omega

/-- C3: in the narrow (SSE2) pass, for every output position (row < height,
column < width) of an image whose channel bytes are in 0..255, each output
channel stored at destination index height·column + row equals the plain sum
of that channel over the 7 gathered window pixels — the eighth loaded packed
slot, whatever `junk` it holds, is masked to zero before summing — divided
by 7 (the exact reciprocal of the kernel length; the float pipeline with the
binary32 constant 1/7 provably rounds to the same integer), rounded to
nearest, and saturated to the 8-bit range. -/
theorem C3_sse2_channel_is_boxed_average (img : Image) (kern : ℕ → ℚ) (w h : ℕ)
    (junk : ℕ → ℕ → Pixel) (dstPrev : Image) (row col : ℕ) (ch : Fin 4)
    (himg : ∀ (i : ℤ) (c : Fin 4), img i c ≤ 255) (hr : row < h) (hc : col < w) :
    blur_impl_horizontal_pass_sse2 img kern w h junk dstPrev ((h : ℤ) * col + row) ch
      = Int.toNat (max 0 (min 255 (rhe
          ((Finset.sum Finset.univ fun i : Fin KERNEL_SIZE =>
              ((sse2Window img w row col i ch : ℕ) : ℚ)) / 7)))) := by
  unfold blur_impl_horizontal_pass_sse2
  rw [pass_store_addr _ w h dstPrev row col hr hc]
  show sse2PixelOut img w row col junk ch = _
  unfold sse2PixelOut
  have hbw : ∀ i : Fin KERNEL_SIZE, sse2Window img w row col i ch ≤ 255 :=
    fun _ => himg _ ch
  rw [sse2Sum32_eq _ _ ch hbw]
  have h0 := hbw 0
  have h1 := hbw 1
  have h2 := hbw 2
  have h3 := hbw 3
  have h4 := hbw 4
  have h5 := hbw 5
  have h6 := hbw 6
  rw [sse2ChannelOut_eq _ (by omega)]
  have hcast : ((sse2Window img w row col 0 ch + sse2Window img w row col 1 ch
      + sse2Window img w row col 2 ch + sse2Window img w row col 3 ch
      + sse2Window img w row col 4 ch + sse2Window img w row col 5 ch
      + sse2Window img w row col 6 ch : ℕ) : ℚ)
      = Finset.sum Finset.univ fun i : Fin KERNEL_SIZE =>
          ((sse2Window img w row col i ch : ℕ) : ℚ) := by
    rw [Fin.sum_univ_seven]
    push_cast
    ring
  rw [hcast]

/-- C3 witness: the channel formula at the all-zero 7×1 image, position
(0, 0), channel 0. -/
theorem C3_sse2_channel_is_boxed_average_witness :
    (∀ (i : ℤ) (c : Fin 4), (fun _ : ℤ => fun _ : Fin 4 => 0) i c ≤ 255)
    ∧ (0 < 1 ∧ 0 < 7)
    ∧ blur_impl_horizontal_pass_sse2 (fun _ => fun _ => 0) (fun _ => 0) 7 1
        (fun _ _ => fun _ => 0) (fun _ => fun _ => 0) ((1 : ℤ) * 0 + 0) 0
      = Int.toNat (max 0 (min 255 (rhe
          ((Finset.sum Finset.univ fun i : Fin KERNEL_SIZE =>
              ((sse2Window (fun _ => fun _ => 0) 7 0 0 i 0 : ℕ) : ℚ)) / 7)))) :=
  ⟨fun _ _ => Nat.zero_le _, ⟨Nat.one_pos, by norm_num⟩,
    C3_sse2_channel_is_boxed_average (fun _ => fun _ => 0) (fun _ => 0) 7 1
      (fun _ _ => fun _ => 0) (fun _ => fun _ => 0) 0 0 0
      (fun _ _ => Nat.zero_le _) Nat.one_pos (by norm_num)⟩

/-! ## The flat-field scenario -/

/-- Flat memory: if every word of the address space holds the same pixel
`p` (bytes ≤ 255), one SSE2 output pixel equals `p` — the per-position
computation itself preserves a flat field exactly. -/
theorem sse2PixelOut_const (p : Pixel) (hp : ∀ c, p c ≤ 255) (w row col : ℕ)
    (junk : ℕ → ℕ → Pixel) :
    sse2PixelOut (fun _ => p) w row col junk = p := by
  funext ch
  show sse2ChannelOut (sse2Sum32 (sse2Window (fun _ => p) w row col)
    (sse2Slot7 (fun _ => p) w row col junk) ch) = p ch
  have hbw : ∀ i : Fin KERNEL_SIZE, sse2Window (fun _ => p) w row col i ch ≤ 255 :=
    fun _ => hp ch
  rw [sse2Sum32_eq _ _ ch hbw]
  show sse2ChannelOut (p ch + p ch + p ch + p ch + p ch + p ch + p ch) = p ch
  have hple := hp ch
  rw [sse2ChannelOut_eq _ (by omega)]
  have h7 : ((p ch + p ch + p ch + p ch + p ch + p ch + p ch : ℕ) : ℚ) / 7
      = ((p ch : ℕ) : ℚ) := by
    push_cast
    ring
  rw [h7, rhe_natCast]
  omega

/-- The packed pixel (255, 0, 0, 255): bytes 255, 0, 0, 255. -/
def redPixel : Pixel := fun c => if c.val = 0 then 255 else if c.val = 3 then 255 else 0

/-- The all-zero pixel. -/
def zeroPixel : Pixel := fun _ => 0

/-- The 4×4 flat red source of the concrete scenario: every word of source
memory holds (255, 0, 0, 255) — even past the 16-pixel buffer, the most
favourable memory for the claim. -/
def c5Src : Image := fun _ => redPixel

/-- The dst scratch memory of the caller: all-zero words around (and inside) the
destination buffer. -/
def c5DstPrev : Image := fun _ => zeroPixel

/-- The uninitialized `_rgbaIn[7]` stack word (masked off, value
irrelevant). -/
def c5Junk : ℕ → ℕ → Pixel := fun _ _ => zeroPixel

/-- The intermediate image after the first pass of the 4×4 scenario. -/
def c5Intermediate : Image :=
  blur_impl_horizontal_pass_sse2 c5Src (kernelNorm (fun _ => 1) (fun _ => 1) 2) 4 4
    c5Junk c5DstPrev

theorem c5Intermediate_in (idx : ℤ) (h1 : 0 ≤ idx) (h2 : idx < 16) :
    c5Intermediate idx = redPixel := by
  show horizontal_pass (fun r c => sse2PixelOut c5Src 4 r c c5Junk) 4 4 c5DstPrev idx
    = redPixel
  unfold horizontal_pass
  rw [if_pos (show (0 : ℤ) ≤ idx ∧ idx < ((4 : ℕ) : ℤ) * ((4 : ℕ) : ℤ) from by
    constructor <;> omega)]
  exact sse2PixelOut_const redPixel (by decide) 4 _ _ _

theorem c5Intermediate_out (idx : ℤ) (h1 : idx < 0) :
    c5Intermediate idx = zeroPixel := by
  show horizontal_pass (fun r c => sse2PixelOut c5Src 4 r c c5Junk) 4 4 c5DstPrev idx
    = zeroPixel
  unfold horizontal_pass
  rw [if_neg (show ¬((0 : ℤ) ≤ idx ∧ idx < ((4 : ℕ) : ℤ) * ((4 : ℕ) : ℤ)) from by
    intro hcon
    omega)]
  rfl

theorem c5Intermediate_le (idx : ℤ) (c : Fin 4) : c5Intermediate idx c ≤ 255 := by
  show horizontal_pass (fun r cc => sse2PixelOut c5Src 4 r cc c5Junk) 4 4 c5DstPrev idx c
    ≤ 255
  unfold horizontal_pass
  split
  · exact le_trans
      (le_of_eq (congrFun (sse2PixelOut_const redPixel (by decide) 4 _ _ c5Junk) c))
      (by revert c; decide)
  · exact Nat.zero_le _

/-- C5 (code bug): the 4×4 all-(255,0,0,255) scenario at sigma 2. Even with
every word of source memory red, the right-border gather of the second pass at
(transposed row 0, column 3) walks `*(src - k)` down to indices −1 and −2 of
the intermediate buffer — caller dst memory below the buffer — so the final
pixel at row-major index 12 (row 3, column 0) averages five red pixels and
two scratch words: its red channel is rhe(5·255/7) = 182, not 255. -/
theorem C5_flat_field_not_preserved :
    (blur_impl_sse2 (fun _ => 1) (fun _ => 1) c5Src c5DstPrev 4 4 2 c5Junk c5Junk).1 12
      ≠ redPixel := by
  have hb : ∀ i : Fin KERNEL_SIZE, sse2Window c5Intermediate 4 0 3 i 0 ≤ 255 :=
    fun i => c5Intermediate_le _ 0
  have hkey : (blur_impl_sse2 (fun _ => 1) (fun _ => 1) c5Src c5DstPrev 4 4 2
        c5Junk c5Junk).1 ((4 : ℤ) * 3 + 0)
      = sse2PixelOut c5Intermediate 4 0 3 c5Junk := by
    show blur_impl_horizontal_pass_sse2 c5Intermediate
        (kernelNorm (fun _ => 1) (fun _ => 1) 2) 4 4 c5Junk c5Src ((4 : ℤ) * 3 + 0)
      = sse2PixelOut c5Intermediate 4 0 3 c5Junk
    unfold blur_impl_horizontal_pass_sse2
    exact pass_store_addr _ 4 4 c5Src 0 3 (by norm_num) (by norm_num)
  have h12 : (12 : ℤ) = (4 : ℤ) * 3 + 0 := by norm_num
  have hch : (blur_impl_sse2 (fun _ => 1) (fun _ => 1) c5Src c5DstPrev 4 4 2
      c5Junk c5Junk).1 12 0 = 182 := by
    rw [h12, hkey]
    show sse2ChannelOut (sse2Sum32 (sse2Window c5Intermediate 4 0 3)
      (sse2Slot7 c5Intermediate 4 0 3 c5Junk) 0) = 182
    rw [sse2Sum32_eq _ _ 0 hb]
    have hs0 : sse2Window c5Intermediate 4 0 3 0 = c5Intermediate 3 := by
      unfold sse2Window
      congr 1
    have hs1 : sse2Window c5Intermediate 4 0 3 1 = c5Intermediate 3 := by
      unfold sse2Window
      congr 1
    have hs2 : sse2Window c5Intermediate 4 0 3 2 = c5Intermediate 2 := by
      unfold sse2Window
      congr 1
    have hs3 : sse2Window c5Intermediate 4 0 3 3 = c5Intermediate 1 := by
      unfold sse2Window
      congr 1
    have hs4 : sse2Window c5Intermediate 4 0 3 4 = c5Intermediate 0 := by
      unfold sse2Window
      congr 1
    have hs5 : sse2Window c5Intermediate 4 0 3 5 = c5Intermediate (-1) := by
      unfold sse2Window
      congr 1
    have hs6 : sse2Window c5Intermediate 4 0 3 6 = c5Intermediate (-2) := by
      unfold sse2Window
      congr 1
    rw [hs0, hs1, hs2, hs3, hs4, hs5, hs6]
    rw [c5Intermediate_in 3 (by norm_num) (by norm_num),
      c5Intermediate_in 2 (by norm_num) (by norm_num),
      c5Intermediate_in 1 (by norm_num) (by norm_num),
      c5Intermediate_in 0 (by norm_num) (by norm_num),
      c5Intermediate_out (-1) (by norm_num), c5Intermediate_out (-2) (by norm_num)]
    show sse2ChannelOut 1275 = 182
    rw [sse2ChannelOut_eq 1275 (by norm_num)]
    have hrh : rhe (((1275 : ℕ) : ℚ) / 7) = 182 := by
      apply rhe_eq_of_close
      · push_cast
        norm_num
      · push_cast
        norm_num
    rw [hrh]
    decide
  intro hcon
  rw [hcon] at hch
  exact absurd hch (by decide)

/-! ## The out-of-bounds reads of the 10×10 scenario -/

/-- 10×10 source memory that is red everywhere, past the buffer included. -/
def c4ImageFull : Image := fun _ => redPixel

/-- Source memory that is red exactly on the 100-word buffer and zero in the
caller memory outside it; inside the buffer it agrees with `c4ImageFull`
word for word. -/
def c4ImageBuffer : Image := fun i => if 0 ≤ i ∧ i < 100 then redPixel else zeroPixel

/-- C4 (code bug): at width 10, column 7 = width−3 is not treated as a
border column (`rightBorder` needs `column > width - 3`), so the interior
path loads window slot 6 from row-relative column 10 — past the row — which
for the last row (row 9) is absolute word 100 = width·height, past the
source buffer (first conjunct). Consequently two source memories that agree
on the whole 100-word buffer and differ only outside it yield different
outputs: the pass output stored at index 79 (row 9, column 7) differs
(last conjunct) — the blur reads, and uses, out-of-buffer memory. -/
theorem C4_reads_out_of_bounds :
    (gatherOffset 10 7 6 = 10 ∧ ¬(gatherOffset 10 7 6 < 10)
      ∧ (9 : ℤ) * 10 + gatherOffset 10 7 6 = 100
      ∧ ¬((9 : ℤ) * 10 + gatherOffset 10 7 6 < 10 * 10))
    ∧ (∀ i : ℤ, 0 ≤ i → i < 100 → c4ImageFull i = c4ImageBuffer i)
    ∧ blur_impl_horizontal_pass_sse2 c4ImageFull (fun _ => 0) 10 10
        (fun _ _ => zeroPixel) (fun _ => zeroPixel) 79
      ≠ blur_impl_horizontal_pass_sse2 c4ImageBuffer (fun _ => 0) 10 10
        (fun _ _ => zeroPixel) (fun _ => zeroPixel) 79 := by
  refine ⟨by decide, ?_, ?_⟩
  · intro i h1 h2
    unfold c4ImageFull c4ImageBuffer
    rw [if_pos ⟨h1, h2⟩]
  · have hble : ∀ (idx : ℤ) (c : Fin 4), c4ImageBuffer idx c ≤ 255 := by
      intro idx c
      unfold c4ImageBuffer
      split
      · revert c
        decide
      · exact Nat.zero_le _
    have hbF : ∀ i : Fin KERNEL_SIZE, sse2Window c4ImageFull 10 9 7 i 0 ≤ 255 :=
      fun _ => (by decide : redPixel 0 ≤ 255)
    have hbB : ∀ i : Fin KERNEL_SIZE, sse2Window c4ImageBuffer 10 9 7 i 0 ≤ 255 :=
      fun _ => hble _ 0
    have hkeyF : blur_impl_horizontal_pass_sse2 c4ImageFull (fun _ => 0) 10 10
        (fun _ _ => zeroPixel) (fun _ => zeroPixel) ((10 : ℤ) * 7 + 9)
        = sse2PixelOut c4ImageFull 10 9 7 (fun _ _ => zeroPixel) := by
      unfold blur_impl_horizontal_pass_sse2
      exact pass_store_addr _ 10 10 (fun _ => zeroPixel) 9 7 (by norm_num) (by norm_num)
    have hkeyB : blur_impl_horizontal_pass_sse2 c4ImageBuffer (fun _ => 0) 10 10
        (fun _ _ => zeroPixel) (fun _ => zeroPixel) ((10 : ℤ) * 7 + 9)
        = sse2PixelOut c4ImageBuffer 10 9 7 (fun _ _ => zeroPixel) := by
      unfold blur_impl_horizontal_pass_sse2
      exact pass_store_addr _ 10 10 (fun _ => zeroPixel) 9 7 (by norm_num) (by norm_num)
    have hchF : sse2PixelOut c4ImageFull 10 9 7 (fun _ _ => zeroPixel) 0 = 255 := by
      show sse2ChannelOut (sse2Sum32 (sse2Window c4ImageFull 10 9 7)
        (sse2Slot7 c4ImageFull 10 9 7 (fun _ _ => zeroPixel)) 0) = 255
      rw [sse2Sum32_eq _ _ 0 hbF]
      show sse2ChannelOut 1785 = 255
      rw [sse2ChannelOut_eq 1785 (le_refl _)]
      have hv : ((1785 : ℕ) : ℚ) / 7 = ((255 : ℕ) : ℚ) := by
        push_cast
        norm_num
      rw [hv, rhe_natCast]
      decide
    have hchB : sse2PixelOut c4ImageBuffer 10 9 7 (fun _ _ => zeroPixel) 0 = 219 := by
      show sse2ChannelOut (sse2Sum32 (sse2Window c4ImageBuffer 10 9 7)
        (sse2Slot7 c4ImageBuffer 10 9 7 (fun _ _ => zeroPixel)) 0) = 219
      rw [sse2Sum32_eq _ _ 0 hbB]
      show sse2ChannelOut 1530 = 219
      rw [sse2ChannelOut_eq 1530 (by norm_num)]
      have hv : rhe (((1530 : ℕ) : ℚ) / 7) = 219 := by
        apply rhe_eq_of_close <;> push_cast <;> norm_num
      rw [hv]
      decide
    intro hcon
    have h79 : (79 : ℤ) = (10 : ℤ) * 7 + 9 := by norm_num
    rw [h79, hkeyF, hkeyB] at hcon
    have h0 := congrFun hcon 0
    rw [hchF, hchB] at h0
    exact absurd h0 (by decide)

end BlurSimd
